import Mathlib

/-!
Verification development for the homecentral path-matching engine
(`src/backend/src/path_tree.rs`) and the type-segmented pub/sub registry
(`src/backend/src/data_lake/mod.rs`).

Shallow embedding conventions:
* Rust `String` path data is modelled as `List Char`; the public parser entry
  takes a Lean `String` and works on `s.toList`.
* Payloads are identified by `Nat` ids playing the role of the Rust reference
  addresses used by the `ByAddress` dedup hack (distinct storage slots have
  distinct addresses; the ids play that role).
* A Rust `panic!` is modelled by `Option`/a `Bool` flag: `none` means the call
  panicked and produced no updated state.
* The `Vec<PathTree<T>>` of children is modelled by `Forest`, an isomorphic
  copy of `List PathTree` (a nested `List` would block the structural
  recursion needed for executable tree measures); `childsList` recovers the
  plain list view used by the traversal.
* The worklist loop of `get_payloads` is modelled by a fuel-indexed loop
  `runJobsF`; `getPayloads` supplies a fuel computed from a termination
  measure, and the termination theorem shows the fuel is never exhausted.
-/

namespace Homecentral

/-- A single component of a Path (`enum PathElement` in path_tree.rs).
`Wildcard (m, o)` carries the mandatory and optional match counts. -/
inductive PathElement where
  | Root : PathElement
  | Name : List Char → PathElement
  | Wildcard : Nat × Nat → PathElement
deriving DecidableEq

open PathElement

/-- Rust `consume_wildcard`: subtracts 1 from the wildcard, preferring the
mandatory count, else the optional count.  The Rust function also returns a
`bool` (fully-consumed flag) that every caller in `get_payloads` ignores, so
the model returns only the updated pair. -/
def consumeWildcard (w : Nat × Nat) : Nat × Nat :=
  if w.1 > 0 then (w.1 - 1, w.2)
  else if w.2 > 0 then (w.1, w.2 - 1)
  else w

mutual
/-- Rust `struct PathTree<T>`: a node owns its element, the payloads attached
at this node, and the child subtrees. -/
inductive PathTree where
  | node (element : PathElement) (payloads : List Nat) (childs : Forest)

/-- The child collection (`Vec<PathTree<T>>`), kept as a separate inductive so
that tree recursions are structural. -/
inductive Forest where
  | nil : Forest
  | cons (c : PathTree) (cs : Forest) : Forest
end

/-- The list view of a `Forest`. -/
def Forest.toList : Forest → List PathTree
  | .nil => []
  | .cons c cs => c :: Forest.toList cs

/-- Build a `Forest` from a list of trees. -/
def Forest.ofList : List PathTree → Forest
  | [] => .nil
  | c :: cs => .cons c (Forest.ofList cs)

/-- The node's path element. -/
def PathTree.element : PathTree → PathElement
  | .node e _ _ => e

/-- The payloads attached exactly at this node. -/
def PathTree.payloads : PathTree → List Nat
  | .node _ p _ => p

/-- The child subtrees of this node, as a list. -/
def PathTree.childsList : PathTree → List PathTree
  | .node _ _ c => Forest.toList c

/-- Rust `PathTree::new()`: a fresh tree is a bare `Root` node. -/
def PathTree.new : PathTree := .node .Root [] .nil

/-- Update the first tree in the list whose element is `e` by `f`
(`childs.iter_mut().find(..)` followed by the recursive insertion in
`add_payload_internal`); `none` if `f` fails on it or no tree matches. -/
def updateFirstMatch (e : PathElement) (f : PathTree → Option PathTree) :
    List PathTree → Option (List PathTree)
  | [] => none
  | c :: others =>
    if c.element = e then (f c).map (· :: others)
    else (updateFirstMatch e f others).map (c :: ·)

/-- Rust `PathTree::add_payload_internal`.  `none` models the
`panic!("Trying to add root element to tree …")` on a mid-path `Root`; in that
case no updated tree exists (the payload is attached nowhere).  The Rust code
pushes the payload directly onto the found-or-created child when one path
element remains; recursing with the empty remainder attaches it at exactly
the same node, which is how the model expresses that step. -/
def addPayloadInternal : List PathElement → Nat → PathTree → Option PathTree
  | [], payload => fun t =>
    some (.node t.element (t.payloads ++ [payload]) (Forest.ofList t.childsList))
  | e :: rest, payload => fun t =>
    if e = Root then
      if t.element ≠ Root then none
      else addPayloadInternal rest payload t
    else
      -- find-or-create a child whose element equals the head of the path
      let cs := if t.childsList.any (fun c => c.element = e)
                then t.childsList
                else t.childsList ++ [.node e [] .nil]
      (updateFirstMatch e (addPayloadInternal rest payload) cs).map
        (fun cs2 => .node t.element t.payloads (Forest.ofList cs2))

/-- Rust `PathTree::add_payload` (entry point). -/
def addPayload (t : PathTree) (path : List PathElement) (payload : Nat) :
    Option PathTree :=
  addPayloadInternal path payload t

/-- A tree built from an insertion sequence, starting from `PathTree.new`;
an insertion that panics leaves the tree unchanged. -/
def buildTree (inserts : List (List PathElement × Nat)) : PathTree :=
  inserts.foldl (fun t ins => (addPayload t ins.1 ins.2).getD t) PathTree.new

/-- Rust `struct Job`: one pending work item of the `get_payloads` traversal.
The Rust borrows (`&PathTree`) become subtree values. -/
structure Job where
  path : List PathElement
  pathWildcardOverride : Option (Nat × Nat)
  tree : PathTree
  treeWildcardOverride : Option (Nat × Nat)
  parentNode : Option PathTree

/-- Rust `struct UniqueReferenceList`: the result vector plus the
address-keyed hash set used to drop duplicates (`ByAddress` on the payload
reference; here the payload id itself carries the identity). -/
structure UniqueReferenceList where
  hashset : List Nat
  vector : List Nat

/-- Rust `UniqueReferenceList::append`: push each payload not seen before. -/
def UniqueReferenceList.append (r : UniqueReferenceList) (payloads : List Nat) :
    UniqueReferenceList :=
  payloads.foldl
    (fun acc p => if p ∈ acc.hashset then acc else ⟨p :: acc.hashset, acc.vector ++ [p]⟩)
    r

/-- Outcome of dispatching one job: `abort` models the `return Vec::new()`
exits for malformed `Root` placement; `next pushed collected` gives the jobs
pushed onto the work list (in push order) and the payload lists appended to
the results (in append order). -/
inductive StepOut where
  | abort : StepOut
  | next (pushed : List Job) (collected : List (List Nat)) : StepOut

/-- Rust `PathTree::_handle_double_wildcard`. -/
def handleDoubleWildcard (pathWildcard treeWildcard : Nat × Nat) (job : Job) :
    StepOut :=
  let collected0 := if job.path.length = 1 then [job.tree.payloads] else []
  let tw := job.treeWildcardOverride.getD treeWildcard
  let pw := job.pathWildcardOverride.getD pathWildcard
  if tw.1 = 0 ∧ tw.2 = 0 then
    -- invalid tree wildcard: remove it and continue into every child
    .next (job.tree.childsList.map
            (fun c => ⟨job.path, none, c, none, some job.tree⟩)) collected0
  else if pw.1 = 0 ∧ pw.2 = 0 then
    -- invalid path wildcard: drop it from the query
    .next [⟨job.path.tail, none, job.tree, none, job.parentNode⟩] collected0
  else
    let skipJobs :=
      if tw.1 = 0 then
        job.tree.childsList.map
          (fun c => ⟨job.path, job.pathWildcardOverride, c, none, some job.tree⟩)
      else []
    let consumeJob : Job :=
      ⟨job.path, some (consumeWildcard pw), job.tree, some (consumeWildcard tw),
        some job.tree⟩
    .next (skipJobs ++ [consumeJob]) collected0

/-- Rust `PathTree::_handle_tree_only_wildcard`. -/
def handleTreeOnlyWildcard (treeWildcard : Nat × Nat) (job : Job) : StepOut :=
  let tw := job.treeWildcardOverride.getD treeWildcard
  if job.path.length = 1 then
    -- collect unconditionally: the query ends here
    .next [] [job.tree.payloads]
  else if tw.1 = 0 ∧ tw.2 = 0 then
    .next (job.tree.childsList.map
            (fun c => ⟨job.path, none, c, none, some job.tree⟩)) []
  else
    let skipJobs :=
      if tw.1 = 0 then
        job.tree.childsList.map
          (fun c => ⟨job.path.tail, none, c, none, some job.tree⟩)
      else []
    let consumeJob : Job :=
      ⟨job.path.tail, none, job.tree, some (consumeWildcard tw), some job.tree⟩
    .next (skipJobs ++ [consumeJob]) []

/-- Rust `PathTree::_handle_path_only_wildcard`. -/
def handlePathOnlyWildcard (pathWildcard : Nat × Nat) (job : Job) : StepOut :=
  let pw := job.pathWildcardOverride.getD pathWildcard
  if pw.1 = 0 ∧ pw.2 = 0 then
    .next [⟨job.path.tail, none, job.tree, none, job.parentNode⟩] []
  else
    let parentCollect :=
      if pw.1 = 0 then
        match job.parentNode with
        | some parent => if job.path.length = 1 then [parent.payloads] else []
        | none => []
      else []
    let skipJobs :=
      if pw.1 = 0 then [⟨job.path.tail, none, job.tree, none, job.parentNode⟩]
      else []
    let selfCollect :=
      if job.path.length = 1 ∧ pw.1 ≤ 1 then [job.tree.payloads] else []
    let consumeJobs :=
      job.tree.childsList.map
        (fun c => ⟨job.path, some (consumeWildcard pw), c, none, some job.tree⟩)
    .next (skipJobs ++ consumeJobs) (parentCollect ++ selfCollect)

/-- One dispatch of the `match (tree_node, path_node)` in
`PathTree::get_payloads`. -/
def step (job : Job) : StepOut :=
  match job.tree.element, job.path.head? with
  | .Root, some .Root =>
    .next (job.tree.childsList.map
            (fun c => ⟨job.path.tail, none, c, none, some job.tree⟩))
          (if job.path.length = 1 then [job.tree.payloads] else [])
  | .Root, _ => .abort
  | _, some .Root => .abort
  | .Name _, none => .next [] []
  | .Name tn, some (.Name pn) =>
    if tn = pn then
      .next (job.tree.childsList.map
              (fun c => ⟨job.path.tail, none, c, none, some job.tree⟩))
            (if job.path.length = 1 then [job.tree.payloads] else [])
    else .next [] []
  | .Name _, some (.Wildcard pw) => handlePathOnlyWildcard pw job
  | .Wildcard tw, some (.Name _) => handleTreeOnlyWildcard tw job
  | .Wildcard tw, some (.Wildcard pw) => handleDoubleWildcard pw tw job
  | .Wildcard tw, none =>
    -- uses the node's own wildcard, not the override, exactly as the source
    .next [] (if tw.1 = 0 then [job.tree.payloads] else [])

/-- Push a list of jobs produced in code order onto the LIFO work list
(`jobs.push(..)` in Rust appends to the stack top; the model's stack top is
the list head). -/
def pushAll (pushed : List Job) (jobs : List Job) : List Job :=
  pushed.foldl (fun js j => j :: js) jobs

/-- The fueled work-list loop of `get_payloads`.  `none` means the fuel ran
out; the termination theorem shows the fuel chosen by `getPayloads` never
does. -/
def runJobsF : Nat → List Job → UniqueReferenceList → Option (List Nat)
  | _, [], results => some results.vector
  | 0, _ :: _, _ => none
  | fuel + 1, job :: rest, results =>
    match step job with
    | .abort => some []
    | .next pushed collected =>
      runJobsF fuel (pushAll pushed rest)
        (collected.foldl UniqueReferenceList.append results)

/-- The `min + max` budget carried by a wildcard element (0 for other
elements); the quantity the termination measure charges for a wildcard. -/
def ebw : PathElement → Nat
  | .Wildcard w => w.1 + w.2
  | _ => 0

/-- The wildcard pair of an element, `(0,0)` for non-wildcards. -/
def wcOf : PathElement → Nat × Nat
  | .Wildcard w => w
  | _ => (0, 0)

mutual
/-- Number of nodes of a tree. -/
def treeSize : PathTree → Nat
  | .node _ _ cs => 1 + forestSize cs

/-- Number of nodes of a forest. -/
def forestSize : Forest → Nat
  | .nil => 0
  | .cons c cs => treeSize c + forestSize cs
end

mutual
/-- Maximum wildcard budget `ebw` over all nodes of a tree. -/
def maxEB : PathTree → Nat
  | .node e _ cs => max (ebw e) (maxEBForest cs)

/-- Maximum wildcard budget `ebw` over all nodes of a forest. -/
def maxEBForest : Forest → Nat
  | .nil => 0
  | .cons c cs => max (maxEB c) (maxEBForest cs)
end

/-- Number of trees in a forest. -/
def forestLen : Forest → Nat
  | .nil => 0
  | .cons _ cs => 1 + forestLen cs

mutual
/-- Maximum number of children over all nodes of a tree. -/
def maxWidth : PathTree → Nat
  | .node _ _ cs => max (forestLen cs) (maxWidthForest cs)

/-- Maximum number of children over all nodes of a forest. -/
def maxWidthForest : Forest → Nat
  | .nil => 0
  | .cons c cs => max (maxWidth c) (maxWidthForest cs)
end

/-- Maximum wildcard budget `ebw` over the elements of a query path. -/
def maxPB (path : List PathElement) : Nat :=
  (path.map ebw).foldl max 0

/-- Effective tree-side wildcard budget of a job: the override if present,
else the budget of the node's own element. -/
def effT (j : Job) : Nat :=
  let w := j.treeWildcardOverride.getD (wcOf j.tree.element)
  w.1 + w.2

/-- Effective query-side wildcard budget of a job: the override if present,
else the budget of the query head. -/
def effP (j : Job) : Nat :=
  let w := j.pathWildcardOverride.getD (wcOf (j.path.headD .Root))
  w.1 + w.2

/-- Rank of a job: a Nat encoding of the lexicographic triple
(query-suffix length, subtree size, remaining wildcard budgets), valid while
subtree sizes stay ≤ `S` and budgets stay ≤ `C`. -/
def jobRank (S C : Nat) (j : Job) : Nat :=
  (j.path.length * (S + 1) + treeSize j.tree) * (C + 1) + (effT j + effP j)

/-- Termination measure of a work list: each dispatch replaces one job by at
most `W + 1` jobs of strictly smaller rank, so the sum of `(W+2)^rank`
strictly decreases. -/
def jobsMeasure (W S C : Nat) (J : List Job) : Nat :=
  (J.map (fun j => (W + 2) ^ jobRank S C j)).sum

/-- Rust `PathTree::get_payloads`, with the loop fuel instantiated at the
termination measure of the initial work list. -/
def getPayloads (t : PathTree) (path : List PathElement) : Option (List Nat) :=
  let initJob : Job := ⟨path, none, t, none, none⟩
  runJobsF
    (jobsMeasure (maxWidth t) (treeSize t) (maxEB t + maxPB path) [initJob])
    [initJob] ⟨[], []⟩

/-- The result list of `get_payloads` (defaulting to `[]`; by the
termination result the default is never taken). -/
def getPayloadsList (t : PathTree) (path : List PathElement) : List Nat :=
  (getPayloads t path).getD []

/-- Rust `str::split("/")`: split on every slash, keeping empty pieces; an
empty input yields one empty piece. -/
def splitOnSlash : List Char → List (List Char)
  | [] => [[]]
  | c :: rest =>
    if c = '/' then [] :: splitOnSlash rest
    else
      match splitOnSlash rest with
      | [] => [[c]]
      | h :: t => (c :: h) :: t

/-- Rust `str::split_once(',')`: split at the first comma, `none` if absent. -/
def splitOnceComma : List Char → Option (List Char × List Char)
  | [] => none
  | c :: rest =>
    if c = ',' then some ([], rest)
    else (splitOnceComma rest).map (fun pr => (c :: pr.1, pr.2))

/-- Rust `str::parse::<usize>()`: an optional leading plus sign followed by at
least one decimal digit.  (Rust additionally fails on values above
`usize::MAX`; the model's `Nat` has no bound, which only changes which error
message the out-of-range branch reports, since every overflowing value also
fails the `≤ 10` wildcard bound.) -/
def parseUsize (cs : List Char) : Option Nat :=
  let ds := if cs.headD ' ' = '+' then cs.tail else cs
  if ds = [] then none
  else if ds.all (fun c => c.isDigit) then
    some (ds.foldl (fun n c => n * 10 + (c.toNat - 48)) 0)
  else none

/-- Rust `impl FromStr for PathElement`.  Error messages follow the source
(quotes elided). -/
def parsePathElement (cs : List Char) : Except String PathElement :=
  if cs = [] then .error "Empty path element not allowed"
  else if cs.headD ' ' = '*' then
    if cs = ['*'] then .ok (.Wildcard (1, 0))
    else if cs = ['*', '*'] then .ok (.Wildcard (0, 9))
    else
      match splitOnceComma cs.tail with
      | none => .error "Failed to parse Wildcard. Possible Wildcard variants: ..."
      | some (minStr, optStr) =>
        match parseUsize minStr with
        | none => .error "Failed to parse Wildcard: Min number of matches not decodable"
        | some minv =>
          match parseUsize optStr with
          | none => .error "Failed to parse Wildcard: Optional number of matches not decodable"
          | some optv =>
            if minv > 10 then
              .error "Wildcards are only allowed to match up to 10 mandatory elements."
            else if optv > 10 then
              .error "Wildcards are only allowed to match up to 10 optional elements."
            else .ok (.Wildcard (minv, optv))
  else .ok (.Name cs)

/-- The `for element in components { result.elements.push(element.parse()?) }`
loop: parse each component, stopping at the first error. -/
def parseElements : List (List Char) → Except String (List PathElement)
  | [] => .ok []
  | seg :: rest =>
    match parsePathElement seg with
    | .error e => .error e
    | .ok el => (parseElements rest).map (fun els => el :: els)

/-- Rust `impl FromStr for Path`, on the character list of the input. -/
def pathFromChars (cs : List Char) : Except String (List PathElement) :=
  if cs.head? ≠ some '/' then .error "Path needs to start with /"
  else if cs.getLast? = some '/' ∧ cs.length > 1 then .error "Path may not end with /"
  else
    let components := (splitOnSlash cs).dropWhile (fun x => x = [])
    (parseElements components).map (fun es => Root :: es)

/-- Rust `"...".parse::<Path>()`. -/
def pathFromString (s : String) : Except String (List PathElement) :=
  pathFromChars s.toList

/-- Rust `impl fmt::Display for PathElement`: `Root` prints nothing, `Name`
prints verbatim, a wildcard prints `*` for `(1,0)`, `**` for `(0,10)` and
`*M,O` otherwise. -/
def elementToChars : PathElement → List Char
  | .Root => []
  | .Name n => n
  | .Wildcard w =>
    match w with
    | (1, 0) => ['*']
    | (0, 10) => ['*', '*']
    | (m, o) => '*' :: (Nat.repr m).toList ++ [','] ++ (Nat.repr o).toList

/-- Rust `impl fmt::Display for Path`: skip the leading `Root` run, then
print `/` followed by each element. -/
def pathToChars (p : List PathElement) : List Char :=
  (p.dropWhile (fun e => e = Root)).foldl (fun acc e => acc ++ '/' :: elementToChars e) []

/-- String view of `pathToChars`. -/
def pathToString (p : List PathElement) : String :=
  String.mk (pathToChars p)

/-!
Model of `DataLake` (`src/backend/src/data_lake/mod.rs`).  The
`HashMap<TypeId, PathTree<Subscriber>>` becomes an association list keyed by a
`Nat` type tag; a stored subscriber is its channel id (a `Nat`), and the state
of the channels is a predicate `closed` telling which receivers have been
dropped.  `sender.send(..).await.unwrap()` panics on a dropped receiver, which
aborts the publish call at that point: the model returns the list of
subscribers reached before the failure together with a flag that is `true`
when the failure happened.
-/

/-- `self.subscriptions.get(&type_id)` on the association-list model. -/
def lookupTree (subs : List (Nat × PathTree)) (tid : Nat) : Option PathTree :=
  (subs.find? (fun kv => kv.1 = tid)).map (fun kv => kv.2)

/-- The fan-out loop of `DataLake::publish`: send a clone to each matched
subscriber in order; a closed receiver makes the send fail and the
`unwrap()` aborts the rest of the loop.  Returns the subscribers actually
sent to, and whether the loop aborted. -/
def sendAll (closed : Nat → Bool) : List Nat → List Nat × Bool
  | [] => ([], false)
  | s :: rest =>
    if closed s then ([], true)
    else
      let r := sendAll closed rest
      (s :: r.1, r.2)

/-- Rust `DataLake::publish`: look up the tree for the payload type; absent
tree means no subscriber was ever registered and the call is a no-op;
otherwise fan out over `get_payloads`. -/
def publish (subs : List (Nat × PathTree)) (closed : Nat → Bool) (tid : Nat)
    (path : List PathElement) : List Nat × Bool :=
  match lookupTree subs tid with
  | none => ([], false)
  | some tree => sendAll closed (getPayloadsList tree path)

/-! ### Auxiliary definitions used by the verification -/

/-! ### Concrete trees used by the concrete claims -/

/-- Tree with a single payload 7 stored under the tree-side wildcard
`/*2,0` (two mandatory segments). -/
def c2Tree : PathTree := buildTree [([Root, Wildcard (2, 0)], 7)]

/-- Tree with a single payload 7 stored at the two-level path `/a/b`. -/
def c4Tree : PathTree := buildTree [([Root, Name ['a'], Name ['b']], 7)]

/-- Tree with a single payload 7 stored at the one-level path `/a`. -/
def c5Tree : PathTree := buildTree [([Root, Name ['a']], 7)]

/-- Modelled from the amended claim C8: a segment is acceptable when it is
nonempty and, if it opens with `*`, is one of the wildcard spellings `*`,
`**`, or `*M,O` with decodable counts `M, O ≤ 10`. -/
def goodSegmentB (seg : List Char) : Bool :=
  decide (seg ≠ []) &&
    (if seg.headD ' ' = '*' then
      seg == ['*'] || seg == ['*', '*'] ||
        (match splitOnceComma seg.tail with
         | none => false
         | some pr =>
           match parseUsize pr.1, parseUsize pr.2 with
           | some mv, some ov => decide (mv ≤ 10) && decide (ov ≤ 10)
           | _, _ => false)
     else true)

/-- Modelled from the amended claim C8: an input is well formed when it
starts with `/`, does not end with `/` (unless it is the single character
`/`), and every segment after the leading empty run is acceptable. -/
def wellFormedPathB (cs : List Char) : Bool :=
  (cs.head? == some '/') &&
    !((cs.getLast? == some '/') && decide (cs.length > 1)) &&
    ((splitOnSlash cs).dropWhile (fun x => decide (x = []))).all goodSegmentB

instance {ε α : Type} [DecidableEq ε] [DecidableEq α] : DecidableEq (Except ε α)
  | .ok a, .ok b =>
    if h : a = b then .isTrue (by rw [h]) else .isFalse (by simp [h])
  | .ok _, .error _ => .isFalse (by simp)
  | .error _, .ok _ => .isFalse (by simp)
  | .error a, .error b =>
    if h : a = b then .isTrue (by rw [h]) else .isFalse (by simp [h])

/-- The textual body produced by the `Display` fold: a slash before each
segment. -/
def joinSegs : List (List Char) → List Char
  | [] => []
  | s :: rest => '/' :: (s ++ joinSegs rest)

/-- `Subtree u t`: `u` is a node of the tree `t` (possibly `t` itself). -/
inductive Subtree : PathTree → PathTree → Prop where
  | refl (t : PathTree) : Subtree t t
  | step {u c t : PathTree} : Subtree u c → c ∈ t.childsList → Subtree u t

/-- Invariant of every job reachable from the initial job of
`getPayloads t0 path0`: its tree is a node of `t0`, its query path a suffix
of `path0`, and its effective wildcard budgets bounded by the largest
budgets occurring in `t0` and `path0`. -/
def JobInv (t0 : PathTree) (path0 : List PathElement) (j : Job) : Prop :=
  Subtree j.tree t0 ∧ j.path <:+ path0 ∧
    effT j ≤ maxEB t0 ∧ effP j ≤ maxPB path0


/-- The tree of the Rust test `test_wildcard_at_end_of_path`. -/
def endTree : PathTree := buildTree [
  ([Root], 0),
  ([Root, Name "l1".toList], 1),
  ([Root, Name "l1".toList, Name "l11".toList], 11),
  ([Root, Name "l1".toList, Name "l12".toList], 12),
  ([Root, Name "l2".toList], 2),
  ([Root, Name "l2".toList, Name "l21".toList], 21),
  ([Root, Name "l2".toList, Name "l22".toList], 22)]

/-- The tree of the Rust test `test_wildcard_in_tree`. -/
def inTreeTree : PathTree := buildTree [
  ([Root], 0),
  ([Root, Name "same".toList], 100),
  ([Root, Wildcard (0, 100)], 500),
  ([Root, Wildcard (0, 100), Name "light".toList], 501),
  ([Root, Name "l1".toList], 1),
  ([Root, Name "l1".toList, Name "l11".toList], 11),
  ([Root, Name "l2".toList], 2),
  ([Root, Name "l2".toList, Name "l21".toList], 21),
  ([Root, Name "l2".toList, Name "light".toList], 20),
  ([Root, Name "l2".toList, Name "l22".toList], 22),
  ([Root, Name "l2".toList, Name "l22".toList], 23),
  ([Root, Name "l2".toList, Wildcard (1, 0)], 600),
  ([Root, Name "l2".toList, Wildcard (0, 1)], 601)]

/-! ### Deduplication invariant of `UniqueReferenceList` -/

/-- Invariant of the result accumulator: the vector has no duplicates and the
hash set contains everything in the vector. -/
def URLInv (r : UniqueReferenceList) : Prop :=
  r.vector.Nodup ∧ ∀ p ∈ r.vector, p ∈ r.hashset

theorem urlInv_append {r : UniqueReferenceList} (ps : List Nat) (h : URLInv r) :
    URLInv (r.append ps) := by
  induction ps generalizing r with
  | nil => exact h
  | cons p rest ih =>
    show URLInv (UniqueReferenceList.append
      (if p ∈ r.hashset then r else ⟨p :: r.hashset, r.vector ++ [p]⟩) rest)
    by_cases hp : p ∈ r.hashset
    · simpa [hp] using ih h
    · have hvec : p ∉ r.vector := fun hv => hp (h.2 p hv)
      refine ih ?_
      simp only [if_neg hp]
      constructor
      · simpa [List.nodup_append] using ⟨h.1, fun hv => hvec hv⟩
      · intro q hq
        rcases List.mem_append.1 hq with hq | hq
        · exact List.mem_cons_of_mem _ (h.2 q hq)
        · simp only [List.mem_singleton] at hq
          simp [hq]

theorem urlInv_foldl_append {r : UniqueReferenceList} (cols : List (List Nat))
    (h : URLInv r) : URLInv (cols.foldl UniqueReferenceList.append r) := by
  induction cols generalizing r with
  | nil => exact h
  | cons c rest ih => exact ih (urlInv_append c h)

theorem runJobsF_nodup :
    ∀ (fuel : Nat) (J : List Job) (res : UniqueReferenceList), URLInv res →
      ∀ out, runJobsF fuel J res = some out → out.Nodup := by
  intro fuel
  induction fuel with
  | zero =>
    intro J res h out hrun
    cases J with
    | nil =>
      simp only [runJobsF, Option.some.injEq] at hrun
      exact hrun ▸ h.1
    | cons j rest => simp [runJobsF] at hrun
  | succ n ih =>
    intro J res h out hrun
    cases J with
    | nil =>
      simp only [runJobsF, Option.some.injEq] at hrun
      exact hrun ▸ h.1
    | cons j rest =>
      rw [runJobsF] at hrun
      cases hstep : step j with
      | abort =>
        rw [hstep] at hrun
        simp only [Option.some.injEq] at hrun
        exact hrun ▸ List.nodup_nil
      | next pushed collected =>
        rw [hstep] at hrun
        exact ih _ _ (urlInv_foldl_append collected h) out hrun

/-- Claim C1: for every pattern tree built by a sequence of `add_payload`
calls and every query path, the list returned by `get_payloads` contains each
stored payload reference at most once, even when several wildcard expansions
reach the same payload (the `UniqueReferenceList` drops rediscoveries). -/
theorem claim_C1_dedup (inserts : List (List PathElement × Nat))
    (q : List PathElement) : (getPayloadsList (buildTree inserts) q).Nodup := by
  unfold getPayloadsList
  cases hrun : getPayloads (buildTree inserts) q with
  | none => simp
  | some out =>
    simp only [Option.getD_some]
    unfold getPayloads at hrun
    exact runJobsF_nodup _ _ _ ⟨List.nodup_nil, by simp⟩ out hrun

/-- Claim C2: the claim states that a payload stored under a tree-side
`Wildcard(min,max)` with `min ≥ 2` is not returned for a query supplying only
one segment at that position.  The code violates this: for the payload at
`/*2,0` and the query `/a`, `_handle_tree_only_wildcard` collects the
wildcard node's payloads unconditionally as soon as the query has exactly one
element left, without checking the mandatory count (the symmetric
`_handle_path_only_wildcard` does check `min <= 1`).  This theorem evaluates
the code at the failing input: the payload IS returned. -/
theorem claim_C2_wildcard_min_code_eval :
    getPayloads c2Tree [Root, Name ['a']] = some [7] := by decide

/-- Claim C4: a tree `/a/b` holding payload 7 queried with `/*2,0` (exactly
two mandatory segments) returns exactly that payload, and queried with
`/*3,0` returns nothing. -/
theorem claim_C4_bounded_repetition :
    getPayloads c4Tree [Root, Wildcard (2, 0)] = some [7] ∧
    getPayloads c4Tree [Root, Wildcard (3, 0)] = some [] := by decide

/-- Claim C5: the claim states that for payload 7 at `/a`, the query
`/a/*0,1` returns that payload (the zero-minimum trailing wildcard credits
the already-matched parent).  The code violates this: the parent-crediting
branch of `_handle_path_only_wildcard` only runs inside a job created for a
child of the matched node, and the leaf `/a` has no children, so no job ever
examines the trailing wildcard and the result is empty.  This theorem
evaluates the code at the failing input. -/
theorem claim_C5_zero_min_wildcard_code_eval :
    getPayloads c5Tree [Root, Name ['a'], Wildcard (0, 1)] = some [] := by decide

/-! ### Root placement on insertion (claim C7) -/

theorem updateFirstMatch_eq_none {e : PathElement} {f : PathTree → Option PathTree}
    {cs : List PathTree} (h : ∀ c ∈ cs, c.element = e → f c = none) :
    updateFirstMatch e f cs = none := by
  induction cs with
  | nil => rfl
  | cons c others ih =>
    unfold updateFirstMatch
    by_cases hc : c.element = e
    · simp [hc, h c (List.mem_cons_self c others) hc]
    · simp [hc, ih (fun c' hc' he' => h c' (List.mem_cons_of_mem c hc') he')]

theorem addPayloadInternal_none_of_root_mem :
    ∀ (path : List PathElement) (payload : Nat) (t : PathTree),
      t.element ≠ Root → Root ∈ path →
      addPayloadInternal path payload t = none := by
  intro path
  induction path with
  | nil => intro payload t _ hmem; cases hmem
  | cons e rest ih =>
    intro payload t ht hmem
    by_cases he : e = Root
    · simp [addPayloadInternal, he, ht]
    · have hrest : Root ∈ rest := by
        rcases List.mem_cons.1 hmem with h | h
        · exact absurd h.symm he
        · exact h
      have h0 : ∀ cs : List PathTree,
          updateFirstMatch e (addPayloadInternal rest payload) cs = none :=
        fun _ => updateFirstMatch_eq_none
          (fun c _ hce => ih payload c (by rw [hce]; exact he) hrest)
      simp [addPayloadInternal, if_neg he, h0]

theorem addPayloadInternal_none_of_root_after_root_run :
    ∀ (path : List PathElement) (payload : Nat) (t : PathTree),
      t.element = Root → Root ∈ path.dropWhile (fun e => e == Root) →
      addPayloadInternal path payload t = none := by
  intro path
  induction path with
  | nil => intro payload t _ hmem; simp [List.dropWhile] at hmem
  | cons e rest ih =>
    intro payload t ht hmem
    by_cases he : e = Root
    · rw [List.dropWhile_cons_of_pos (by simp [he])] at hmem
      simp only [addPayloadInternal, if_pos he, ht, ne_eq, not_true_eq_false,
        if_false, ite_not]
      exact ih payload t ht hmem
    · rw [List.dropWhile_cons_of_neg (by simp [he])] at hmem
      have hrest : Root ∈ rest := by
        rcases List.mem_cons.1 hmem with h | h
        · exact absurd h.symm he
        · exact h
      have h0 : ∀ cs : List PathTree,
          updateFirstMatch e (addPayloadInternal rest payload) cs = none :=
        fun _ => updateFirstMatch_eq_none
          (fun c _ hce =>
            addPayloadInternal_none_of_root_mem rest payload c
              (by rw [hce]; exact he) hrest)
      simp [addPayloadInternal, if_neg he, h0]

/-- Claim C7 counterexample: the claim says every path with `Root` at a
position other than the first makes `add_payload` on a fresh tree panic, but
the path `[Root, Root]` has `Root` at position 1 and the insertion succeeds
(the leading run of `Root` elements collapses onto the root node; the Rust
test `test_add_payload_to_2root` exercises exactly this). -/
theorem claim_C7_counterexample :
    [Root, Root].get? 1 = some Root ∧
    (addPayload PathTree.new [Root, Root] 0).isSome = true := by decide

/-- Claim C7 (amended): `add_payload` on a fresh tree panics — modelled as
returning `none`, so the payload is attached nowhere — exactly on the paths
in which a `Root` element occurs after some non-`Root` element (i.e. `Root`
still present after dropping the leading run of `Root`s); a path whose
`Root`s form a leading run inserts fine. -/
theorem claim_C7_root_mid_path (path : List PathElement) (payload : Nat)
    (h : Root ∈ path.dropWhile (fun e => e == Root)) :
    addPayload PathTree.new path payload = none :=
  addPayloadInternal_none_of_root_after_root_run path payload PathTree.new rfl h

theorem claim_C7_root_mid_path_witness :
    Root ∈ [Name ['a'], Root].dropWhile (fun e => e == Root) ∧
    addPayload PathTree.new [Name ['a'], Root] 0 = none :=
  ⟨by decide, claim_C7_root_mid_path [Name ['a'], Root] 0 (by decide)⟩

/-! ### Publish fan-out (claim C9) -/

theorem sendAll_stops_at_closed (closed : Nat → Bool) :
    ∀ (pre : List Nat) (s : Nat) (post : List Nat), closed s = true →
      (∀ x ∈ pre, closed x = false) →
      sendAll closed (pre ++ s :: post) = (pre, true) := by
  intro pre
  induction pre with
  | nil => intro s post hs _; simp [sendAll, hs]
  | cons x rest ih =>
    intro s post hs hpre
    have hx : closed x = false := hpre x (List.mem_cons_self x rest)
    have hr := ih s post hs (fun y hy => hpre y (List.mem_cons_of_mem x hy))
    simp only [List.cons_append, sendAll, hx, Bool.false_eq_true, if_false,
      List.append_eq, hr]

/-- Claim C9: when `publish` matches a subscriber whose receiver handle has
been dropped, the send fails and the failure aborts the publish call at that
point (`send(..).await.unwrap()`; the model's `true` flag is the abort):
exactly the matched subscribers before the first dropped one are served and
the remaining fan-out is not continued.  A publish of a type for which no
subscriber was ever registered finds no tree and is a silent no-op. -/
theorem claim_C9_publish_dropped_receiver (subs : List (Nat × PathTree))
    (closed : Nat → Bool) (tid : Nat) (path : List PathElement) :
    (lookupTree subs tid = none → publish subs closed tid path = ([], false)) ∧
    (∀ tree pre s post, lookupTree subs tid = some tree →
      getPayloadsList tree path = pre ++ s :: post → closed s = true →
      (∀ x ∈ pre, closed x = false) →
      publish subs closed tid path = (pre, true)) := by
  constructor
  · intro hnone
    simp [publish, hnone]
  · intro tree pre s post htree hmatch hs hpre
    simp only [publish, htree, hmatch]
    exact sendAll_stops_at_closed closed pre s post hs hpre

theorem claim_C9_publish_dropped_receiver_witness :
    lookupTree [(0, c5Tree)] 1 = none ∧
    publish [(0, c5Tree)] (fun n => decide (n = 7)) 1 [Root, Name ['a']] = ([], false) ∧
    lookupTree [(0, c5Tree)] 0 = some c5Tree ∧
    getPayloadsList c5Tree [Root, Name ['a']] = [] ++ 7 :: [] ∧
    publish [(0, c5Tree)] (fun n => decide (n = 7)) 0 [Root, Name ['a']] = ([], true) :=
  ⟨rfl, (claim_C9_publish_dropped_receiver [(0, c5Tree)]
      (fun n => decide (n = 7)) 1 [Root, Name ['a']]).1 rfl,
   rfl, by decide,
   (claim_C9_publish_dropped_receiver [(0, c5Tree)]
      (fun n => decide (n = 7)) 0 [Root, Name ['a']]).2 c5Tree [] 7 []
      rfl (by decide) (by decide) (by intro x hx; cases hx)⟩

/-! ### Path parsing: slashes (claim C10) -/

theorem splitOnSlash_of_no_slash {a : List Char} (h : '/' ∉ a) :
    splitOnSlash a = [a] := by
  induction a with
  | nil => rfl
  | cons c rest ih =>
    have hc : ¬c = '/' := fun e => h (e ▸ List.mem_cons_self c rest)
    have hrest : '/' ∉ rest := fun hr => h (List.mem_cons_of_mem c hr)
    simp [splitOnSlash, hc, ih hrest]

theorem splitOnSlash_replicate (k : Nat) (a : List Char) :
    splitOnSlash (List.replicate k '/' ++ a) =
      List.replicate k [] ++ splitOnSlash a := by
  induction k with
  | zero => simp
  | succ m ih => simp [List.replicate_succ, splitOnSlash, ih]

theorem dropWhile_replicate_append {α : Type} (p : α → Bool) (x : α)
    (hx : p x = true) (k : Nat) (l : List α) :
    List.dropWhile p (List.replicate k x ++ l) = List.dropWhile p l := by
  induction k with
  | zero => simp
  | succ m ih => simp [List.replicate_succ, List.dropWhile_cons_of_pos hx, ih]

theorem getLast?_no_slash {a : List Char} (h : '/' ∉ a) :
    ¬a.getLast? = some '/' := by
  intro hlast
  have : '/' ∈ a.getLast? := Option.mem_def.2 hlast
  obtain ⟨hne, heq⟩ := List.mem_getLast?_eq_getLast this
  exact h (heq ▸ List.getLast_mem hne)

/-- Claim C10: repeated leading slashes are tolerated — for every plain name
segment `a`, any positive number of leading `/` characters parses to the same
path `[Root, Name a]` that `/a` parses to — while an empty segment after the
first non-empty one, as in `/a//b`, is rejected with the
`Empty path element not allowed` parse error. -/
theorem claim_C10_leading_slashes (k : Nat) (a : List Char) (hk : 1 ≤ k)
    (ha : a ≠ []) (hslash : '/' ∉ a) (hstar : ¬a.headD ' ' = '*') :
    pathFromChars (List.replicate k '/' ++ a) = .ok [Root, Name a] ∧
    pathFromChars "/a//b".toList = .error "Empty path element not allowed" := by
  refine ⟨?_, rfl⟩
  obtain ⟨m, rfl⟩ : ∃ m, k = m + 1 := ⟨k - 1, (Nat.succ_pred_eq_of_pos hk).symm⟩
  have hhead : (List.replicate (m + 1) '/' ++ a).head? = some '/' := by
    rw [List.replicate_succ]; rfl
  have hlast : (List.replicate (m + 1) '/' ++ a).getLast? = a.getLast? :=
    List.getLast?_append_of_ne_nil _ ha
  unfold pathFromChars
  rw [if_neg (by simp [hhead])]
  rw [if_neg (by rw [hlast]; exact fun hc => getLast?_no_slash hslash hc.1)]
  rw [splitOnSlash_replicate, splitOnSlash_of_no_slash hslash,
    dropWhile_replicate_append _ _ (by simp) _ _,
    List.dropWhile_cons_of_neg (by simpa using ha)]
  simp only [List.dropWhile_nil, parseElements, parsePathElement, if_neg ha,
    if_neg hstar]
  rfl

theorem claim_C10_leading_slashes_witness :
    pathFromChars (List.replicate 2 '/' ++ ['x']) = .ok [Root, Name ['x']] :=
  (claim_C10_leading_slashes 2 ['x'] (by decide) (by decide) (by decide)
    (by decide)).1

/-! ### Which inputs parse (claim C8) -/

theorem parsePathElement_isOk (seg : List Char) :
    (parsePathElement seg).isOk = goodSegmentB seg := by
  unfold parsePathElement goodSegmentB
  by_cases h0 : seg = []
  · simp [h0, Except.isOk, Except.toBool]
  · rw [if_neg h0]
    by_cases h1 : seg.headD ' ' = '*'
    · rw [if_pos h1, if_pos h1]
      by_cases h2 : seg = ['*']
      · simp [h0, h2, Except.isOk, Except.toBool]
      · rw [if_neg h2]
        by_cases h3 : seg = ['*', '*']
        · simp [h0, h2, h3, Except.isOk, Except.toBool]
        · rw [if_neg h3]
          cases hsplit : splitOnceComma seg.tail with
          | none => simp [h0, h2, h3, hsplit, Except.isOk, Except.toBool]
          | some pr =>
            cases hmin : parseUsize pr.1 with
            | none => simp [h0, h2, h3, hsplit, hmin, Except.isOk, Except.toBool]
            | some mv =>
              cases hopt : parseUsize pr.2 with
              | none =>
                simp [h0, h2, h3, hsplit, hmin, hopt, Except.isOk, Except.toBool]
              | some ov =>
                by_cases hb1 : mv > 10
                · simp [h0, h2, h3, hsplit, hmin, hopt, hb1, Except.isOk,
                    Except.toBool, Nat.not_le.2 hb1]
                · by_cases hb2 : ov > 10
                  · simp [h0, h2, h3, hsplit, hmin, hopt, hb1, hb2, Except.isOk,
                      Except.toBool, Nat.not_le.2 hb2]
                  · simp [h0, h2, h3, hsplit, hmin, hopt, hb1, hb2, Except.isOk,
                      Except.toBool, Nat.not_lt.1 hb1, Nat.not_lt.1 hb2]
    · have h1b : ¬seg.head?.getD ' ' = '*' := by simpa using h1
      simp [h0, h1b, Except.isOk, Except.toBool]

theorem parseElements_isOk (l : List (List Char)) :
    (parseElements l).isOk = l.all goodSegmentB := by
  induction l with
  | nil => rfl
  | cons seg rest ih =>
    unfold parseElements
    cases hp : parsePathElement seg with
    | error e =>
      have : goodSegmentB seg = false := by
        rw [← parsePathElement_isOk, hp]; rfl
      simp [Except.isOk, Except.toBool, this]
    | ok el =>
      have hgood : goodSegmentB seg = true := by
        rw [← parsePathElement_isOk, hp]; rfl
      rw [List.all_cons, hgood, Bool.true_and, ← ih]
      cases parseElements rest <;> rfl

/-- Claim C8 counterexample: the claim says parsing fails exactly when the
input does not start with `/`, ends with `/` while longer than `/`, or has a
wildcard with a count above 10 — yet `/a//b` satisfies none of these (it
even contains no `*` segment at all) and still fails to parse. -/
theorem claim_C8_counterexample :
    (pathFromChars "/a//b".toList).isOk = false ∧
    "/a//b".toList.head? = some '/' ∧
    ¬"/a//b".toList.getLast? = some '/' ∧
    (splitOnSlash "/a//b".toList).all
      (fun seg => decide (¬seg.headD ' ' = '*')) = true := by decide

/-- Claim C8 (amended): `Path::from_str` is total (it returns a descriptive
error value rather than panicking) and succeeds exactly on the well-formed
inputs: a leading `/`, no trailing `/` unless the input is exactly `/`, and
every segment after the leading empty run nonempty and, when it opens with
`*`, a wildcard spelling `*`, `**` or `*M,O` with decodable `M, O ≤ 10`.
The single string `/` parses to the root-only path. -/
theorem claim_C8_parse_error_cases :
    (∀ s : String, (pathFromString s).isOk = wellFormedPathB s.toList) ∧
    pathFromString "/" = .ok [Root] := by
  refine ⟨fun s => ?_, rfl⟩
  obtain ⟨cs⟩ := s
  show (pathFromChars cs).isOk = wellFormedPathB cs
  unfold pathFromChars wellFormedPathB
  by_cases h1 : cs.head? = some '/'
  · rw [if_neg (by simp [h1])]
    by_cases h2 : cs.getLast? = some '/' ∧ cs.length > 1
    · rw [if_pos h2]
      simp [Except.isOk, Except.toBool, h2.1, h2.2]
    · rw [if_neg h2]
      have hmap : ∀ r : Except String (List PathElement),
          (r.map (fun es => Root :: es)).isOk = r.isOk := by
        intro r; cases r <;> rfl
      rw [hmap, parseElements_isOk]
      have h2b : ((cs.getLast? == some '/') && decide (cs.length > 1)) = false := by
        by_cases ha : cs.getLast? = some '/'
        · by_cases hb : cs.length > 1
          · exact absurd ⟨ha, hb⟩ h2
          · simp [hb]
        · simp [ha]
      simp [h1, h2b]
  · rw [if_pos (by simp [h1])]
    simp [Except.isOk, Except.toBool, h1]

/-! ### Serialization round trip (claim C6) -/

theorem parsePathElement_ok_shape {seg : List Char} {e : PathElement}
    (h : parsePathElement seg = .ok e) :
    (e = .Name seg ∧ seg ≠ [] ∧ ¬seg.headD ' ' = '*') ∨
    (∃ m o, e = .Wildcard (m, o) ∧ m ≤ 10 ∧ o ≤ 10) := by
  unfold parsePathElement at h
  by_cases h0 : seg = []
  · rw [if_pos h0] at h; cases h
  · rw [if_neg h0] at h
    by_cases h1 : seg.headD ' ' = '*'
    · rw [if_pos h1] at h
      right
      by_cases h2 : seg = ['*']
      · rw [if_pos h2] at h
        simp only [Except.ok.injEq] at h
        exact ⟨1, 0, h.symm, by omega, by omega⟩
      · rw [if_neg h2] at h
        by_cases h3 : seg = ['*', '*']
        · rw [if_pos h3] at h
          simp only [Except.ok.injEq] at h
          exact ⟨0, 9, h.symm, by omega, by omega⟩
        · rw [if_neg h3] at h
          cases hsplit : splitOnceComma seg.tail with
          | none => rw [hsplit] at h; cases h
          | some pr =>
            obtain ⟨prMin, prOpt⟩ := pr
            rw [hsplit] at h
            simp only [] at h
            cases hmin : parseUsize prMin with
            | none => rw [hmin] at h; cases h
            | some mv =>
              rw [hmin] at h
              cases hopt : parseUsize prOpt with
              | none => rw [hopt] at h; cases h
              | some ov =>
                rw [hopt] at h
                simp only [] at h
                by_cases hb1 : mv > 10
                · rw [if_pos hb1] at h; cases h
                · rw [if_neg hb1] at h
                  by_cases hb2 : ov > 10
                  · rw [if_pos hb2] at h; cases h
                  · rw [if_neg hb2] at h
                    simp only [Except.ok.injEq] at h
                    exact ⟨mv, ov, h.symm, Nat.not_lt.1 hb1, Nat.not_lt.1 hb2⟩
    · rw [if_neg h1] at h
      simp only [Except.ok.injEq] at h
      exact Or.inl ⟨h.symm, h0, h1⟩

theorem wildcard_roundtrip_le10_bool :
    ((List.range 11).all fun m => (List.range 11).all fun o =>
      decide (m = 0 ∧ o = 10) ||
        (decide (elementToChars (.Wildcard (m, o)) ≠ []) &&
         decide ('/' ∉ elementToChars (.Wildcard (m, o))) &&
         decide (parsePathElement (elementToChars (.Wildcard (m, o))) =
           .ok (.Wildcard (m, o))))) = true := by decide

theorem wildcard_roundtrip_le10 {m o : Nat} (hm : m ≤ 10) (ho : o ≤ 10)
    (hno : ¬(m = 0 ∧ o = 10)) :
    elementToChars (.Wildcard (m, o)) ≠ [] ∧
    '/' ∉ elementToChars (.Wildcard (m, o)) ∧
    parsePathElement (elementToChars (.Wildcard (m, o))) =
      .ok (.Wildcard (m, o)) := by
  have hb := wildcard_roundtrip_le10_bool
  rw [List.all_eq_true] at hb
  have h1 := hb m (List.mem_range.2 (by omega))
  rw [List.all_eq_true] at h1
  have h2 := h1 o (List.mem_range.2 (by omega))
  simp only [Bool.or_eq_true, Bool.and_eq_true] at h2
  rcases h2 with hcase | ⟨⟨hc1, hc2⟩, hc3⟩
  · exact absurd (of_decide_eq_true hcase) hno
  · exact ⟨of_decide_eq_true hc1, of_decide_eq_true hc2, of_decide_eq_true hc3⟩

theorem splitOnSlash_pieces :
    ∀ {cs piece : List Char}, piece ∈ splitOnSlash cs → '/' ∉ piece := by
  intro cs
  induction cs with
  | nil =>
    intro piece hp
    simp only [splitOnSlash, List.mem_singleton] at hp
    simp [hp]
  | cons c rest ih =>
    intro piece hp
    by_cases hc : c = '/'
    · rw [splitOnSlash, if_pos hc] at hp
      rcases List.mem_cons.1 hp with h | h
      · simp [h]
      · exact ih h
    · rw [splitOnSlash, if_neg hc] at hp
      cases hrest : splitOnSlash rest with
      | nil =>
        rw [hrest] at hp
        simp only [List.mem_singleton] at hp
        subst hp
        intro hm
        rcases List.mem_cons.1 hm with he | he
        · exact hc he.symm
        · cases he
      | cons h t =>
        rw [hrest] at hp
        rcases List.mem_cons.1 hp with hm | hm
        · subst hm
          intro hmem
          rcases List.mem_cons.1 hmem with he | he
          · exact hc he.symm
          · exact ih (hrest ▸ List.mem_cons_self h t) he
        · exact ih (hrest ▸ List.mem_cons_of_mem h hm)

theorem splitOnSlash_append {s : List Char} (hs : '/' ∉ s) (rest : List Char) :
    splitOnSlash (s ++ '/' :: rest) = s :: splitOnSlash rest := by
  induction s with
  | nil => simp [splitOnSlash]
  | cons c s' ih =>
    have hc : ¬c = '/' := fun e => hs (e ▸ List.mem_cons_self c s')
    have hs' : '/' ∉ s' := fun hm => hs (List.mem_cons_of_mem c hm)
    simp [splitOnSlash, hc, ih hs']

theorem foldl_slash_join (l : List PathElement) (acc : List Char) :
    l.foldl (fun acc e => acc ++ '/' :: elementToChars e) acc =
      acc ++ joinSegs (l.map elementToChars) := by
  induction l generalizing acc with
  | nil => simp [joinSegs]
  | cons e rest ih =>
    rw [List.foldl_cons, ih, List.map_cons]
    simp [joinSegs, List.append_assoc]

theorem splitOnSlash_slash_cons (x : List Char) :
    splitOnSlash ('/' :: x) = [] :: splitOnSlash x := rfl

theorem splitOnSlash_joinSegs :
    ∀ {segs : List (List Char)}, segs ≠ [] → (∀ s ∈ segs, '/' ∉ s) →
      splitOnSlash (joinSegs segs) = [] :: segs := by
  intro segs
  induction segs with
  | nil => intro h; exact absurd rfl h
  | cons s rest ih =>
    intro _ hs
    have hss : '/' ∉ s := hs s (List.mem_cons_self s rest)
    cases rest with
    | nil => simp [joinSegs, splitOnSlash, splitOnSlash_of_no_slash hss]
    | cons r rest' =>
      have hrec := ih (List.cons_ne_nil r rest')
        (fun x hx => hs x (List.mem_cons_of_mem s hx))
      simp only [joinSegs] at hrec ⊢
      rw [splitOnSlash_slash_cons] at hrec ⊢
      rw [splitOnSlash_append hss]
      simp only [List.cons.injEq, true_and] at hrec
      rw [hrec]

theorem joinSegs_getLast?_ne_slash :
    ∀ {segs : List (List Char)}, segs ≠ [] →
      (∀ s ∈ segs, s ≠ [] ∧ '/' ∉ s) →
      ¬(joinSegs segs).getLast? = some '/' := by
  intro segs
  induction segs with
  | nil => intro h; exact absurd rfl h
  | cons s rest ih =>
    intro _ hs
    obtain ⟨hne, hslash⟩ := hs s (List.mem_cons_self s rest)
    cases rest with
    | nil =>
      have : joinSegs [s] = ['/'] ++ s := by simp [joinSegs]
      rw [this, List.getLast?_append_of_ne_nil _ hne]
      exact getLast?_no_slash hslash
    | cons r rest' =>
      have hjoin : joinSegs (s :: r :: rest') =
          ('/' :: s) ++ joinSegs (r :: rest') := by simp [joinSegs]
      have hne2 : joinSegs (r :: rest') ≠ [] := by simp [joinSegs]
      rw [hjoin, List.getLast?_append_of_ne_nil _ hne2]
      exact ih (List.cons_ne_nil r rest')
        (fun x hx => hs x (List.mem_cons_of_mem s hx))

theorem parseElements_map {es : List PathElement}
    (h : ∀ e ∈ es, parsePathElement (elementToChars e) = .ok e) :
    parseElements (es.map elementToChars) = .ok es := by
  induction es with
  | nil => rfl
  | cons e rest ih =>
    rw [List.map_cons, parseElements, h e (List.mem_cons_self e rest),
      ih (fun x hx => h x (List.mem_cons_of_mem e hx))]
    rfl

theorem parseElements_ok_mem :
    ∀ {l : List (List Char)} {es : List PathElement},
      parseElements l = .ok es →
      ∀ e ∈ es, ∃ seg ∈ l, parsePathElement seg = .ok e := by
  intro l
  induction l with
  | nil =>
    intro es h e he
    cases h
    cases he
  | cons seg rest ih =>
    intro es h e he
    rw [parseElements] at h
    cases hp : parsePathElement seg with
    | error msg => rw [hp] at h; cases h
    | ok el =>
      rw [hp] at h
      cases hr : parseElements rest with
      | error msg => rw [hr] at h; cases h
      | ok els =>
        rw [hr] at h
        simp only [Except.map, Except.ok.injEq] at h
        subst h
        rcases List.mem_cons.1 he with he | he
        · exact ⟨seg, List.mem_cons_self seg rest, he ▸ hp⟩
        · obtain ⟨sg, hsg, hps⟩ := ih hr e he
          exact ⟨sg, List.mem_cons_of_mem seg hsg, hps⟩

theorem pathFromChars_ok {cs : List Char} {p : List PathElement}
    (h : pathFromChars cs = .ok p) :
    ∃ es, p = Root :: es ∧
      parseElements ((splitOnSlash cs).dropWhile (fun x => decide (x = []))) =
        .ok es := by
  unfold pathFromChars at h
  by_cases h1 : cs.head? ≠ some '/'
  · rw [if_pos h1] at h; cases h
  · rw [if_neg h1] at h
    by_cases h2 : cs.getLast? = some '/' ∧ cs.length > 1
    · rw [if_pos h2] at h; cases h
    · rw [if_neg h2] at h
      simp only [] at h
      cases hp : parseElements ((splitOnSlash cs).dropWhile (fun x => decide (x = []))) with
      | error msg => rw [hp] at h; cases h
      | ok es =>
        rw [hp] at h
        simp only [Except.map, Except.ok.injEq] at h
        exact ⟨es, h.symm, rfl⟩

/-- Claim C6 counterexample: the claim says serialization reproduces the
canonical form of the input, with `*` and `**` mapping to their `(min,max)`
encodings and back.  For `s = "/*0,10"` the parse result is
`Wildcard (0,10)`, but `Display` spells that wildcard `**`, which the parser
decodes as `Wildcard (0,9)`: the serialized form denotes a different path, so
the round trip fails at this input. -/
theorem claim_C6_counterexample :
    pathFromString "/*0,10" = .ok [Root, .Wildcard (0, 10)] ∧
    pathToString [Root, .Wildcard (0, 10)] = "/**" ∧
    pathFromString "/**" = .ok [Root, .Wildcard (0, 9)] ∧
    (Wildcard (0, 9) : PathElement) ≠ Wildcard (0, 10) :=
  ⟨rfl, rfl, rfl, by decide⟩

/-- Claim C6 (amended): for every well-formed path string, re-parsing the
serialized parse result gives back exactly the parsed path — i.e.
serialization produces the canonical spelling of the same path — provided
the path is not the bare root (whose serialization is the empty string) and
contains no `Wildcard (0,10)` (whose spelling `**` re-parses as
`Wildcard (0,9)`, the counterexample above). -/
theorem claim_C6_round_trip (s : String) (p : List PathElement)
    (hp : pathFromString s = .ok p) (hw : .Wildcard (0, 10) ∉ p)
    (hlen : 2 ≤ p.length) :
    pathFromString (pathToString p) = .ok p := by
  obtain ⟨es, rfl, hparse⟩ := pathFromChars_ok hp
  -- facts about every element of the parsed tail
  have hfacts : ∀ e ∈ es, e ≠ Root ∧ elementToChars e ≠ [] ∧
      '/' ∉ elementToChars e ∧
      parsePathElement (elementToChars e) = .ok e := by
    intro e he
    obtain ⟨seg, hseg, hps⟩ := parseElements_ok_mem hparse e he
    have hnoslash : '/' ∉ seg :=
      splitOnSlash_pieces ((List.dropWhile_sublist _).mem hseg)
    rcases parsePathElement_ok_shape hps with ⟨rfl, hne, hstar⟩ | ⟨m, o, rfl, hm, ho⟩
    · refine ⟨by simp, hne, hnoslash, ?_⟩
      show parsePathElement seg = .ok (.Name seg)
      unfold parsePathElement
      rw [if_neg hne, if_neg hstar]
    · have hno10 : ¬(m = 0 ∧ o = 10) := by
        rintro ⟨rfl, rfl⟩
        exact hw (List.mem_cons_of_mem _ he)
      obtain ⟨h1, h2, h3⟩ := wildcard_roundtrip_le10 hm ho hno10
      exact ⟨by simp, h1, h2, h3⟩
  have hes : es ≠ [] := by
    intro h
    rw [h] at hlen
    simp at hlen
  -- the serialized text
  have hdrop : (Root :: es).dropWhile (fun e => decide (e = Root)) = es := by
    rw [List.dropWhile_cons_of_pos (by simp)]
    cases es with
    | nil => rfl
    | cons e rest =>
      exact List.dropWhile_cons_of_neg
        (by simp [(hfacts e (List.mem_cons_self e rest)).1])
  have htext : pathToChars (Root :: es) = joinSegs (es.map elementToChars) := by
    rw [pathToChars, hdrop, foldl_slash_join]
    rfl
  have hsegs_ne : es.map elementToChars ≠ [] := by
    simpa using hes
  have hsegfacts : ∀ sg ∈ es.map elementToChars, sg ≠ [] ∧ '/' ∉ sg := by
    intro sg hsg
    obtain ⟨e, he, rfl⟩ := List.mem_map.1 hsg
    exact ⟨(hfacts e he).2.1, (hfacts e he).2.2.1⟩
  show pathFromChars (pathToChars (Root :: es)) = _
  rw [htext]
  -- now reassemble the parse
  obtain ⟨s0, segs0, hsegs0⟩ : ∃ s0 segs0, es.map elementToChars = s0 :: segs0 := by
    cases hm : es.map elementToChars with
    | nil => exact absurd hm hsegs_ne
    | cons a b => exact ⟨a, b, rfl⟩
  unfold pathFromChars
  simp only []
  rw [if_neg (by rw [hsegs0]; simp [joinSegs])]
  rw [if_neg (fun hc =>
    joinSegs_getLast?_ne_slash hsegs_ne hsegfacts hc.1)]
  rw [splitOnSlash_joinSegs hsegs_ne (fun sg hsg => (hsegfacts sg hsg).2)]
  rw [List.dropWhile_cons_of_pos (by simp)]
  rw [hsegs0, List.dropWhile_cons_of_neg
    (by simp [(hsegfacts s0 (hsegs0 ▸ List.mem_cons_self s0 segs0)).1])]
  rw [← hsegs0, parseElements_map (fun e he => (hfacts e he).2.2.2)]
  rfl

theorem claim_C6_round_trip_witness :
    pathFromString "/a/**" = .ok [Root, Name ['a'], Wildcard (0, 9)] ∧
    pathFromString (pathToString [Root, Name ['a'], Wildcard (0, 9)]) =
      .ok [Root, Name ['a'], Wildcard (0, 9)] :=
  ⟨rfl, claim_C6_round_trip "/a/**" [Root, Name ['a'], Wildcard (0, 9)] rfl
    (by decide) (by decide)⟩

/-! ### Termination of the work-list traversal (claim C3) -/

theorem subtree_child {c t : PathTree} (h : c ∈ t.childsList) : Subtree c t :=
  .step (.refl c) h

theorem subtree_of_childMem {u t c : PathTree} (h : Subtree u t)
    (hc : c ∈ u.childsList) : Subtree c t := by
  induction h with
  | refl => exact subtree_child hc
  | step hs hmem ih => exact .step ih hmem

theorem treeSize_mem_le :
    ∀ (cs : Forest) (c : PathTree), c ∈ cs.toList → treeSize c ≤ forestSize cs
  | .nil, c, h => absurd h (List.not_mem_nil c)
  | .cons c' cs', c, h => by
    rcases List.mem_cons.1 h with h | h
    · rw [h, forestSize]; omega
    · have := treeSize_mem_le cs' c h; rw [forestSize]; omega

theorem treeSize_child_lt {c t : PathTree} (h : c ∈ t.childsList) :
    treeSize c < treeSize t := by
  cases t with
  | node e p cs =>
    have := treeSize_mem_le cs c h
    rw [treeSize]; omega

theorem subtree_size_le {u t : PathTree} (h : Subtree u t) :
    treeSize u ≤ treeSize t := by
  induction h with
  | refl => exact le_rfl
  | step hs hmem ih => exact le_trans ih (le_of_lt (treeSize_child_lt hmem))

theorem maxEB_mem_le :
    ∀ (cs : Forest) (c : PathTree), c ∈ cs.toList → maxEB c ≤ maxEBForest cs
  | .nil, c, h => absurd h (List.not_mem_nil c)
  | .cons c' cs', c, h => by
    rcases List.mem_cons.1 h with h | h
    · rw [h, maxEBForest]; exact le_max_left _ _
    · exact le_trans (maxEB_mem_le cs' c h)
        (by rw [maxEBForest]; exact le_max_right _ _)

theorem maxEB_child_le {c t : PathTree} (h : c ∈ t.childsList) :
    maxEB c ≤ maxEB t := by
  cases t with
  | node e p cs =>
    exact le_trans (maxEB_mem_le cs c h) (by rw [maxEB]; exact le_max_right _ _)

theorem subtree_maxEB_le {u t : PathTree} (h : Subtree u t) :
    maxEB u ≤ maxEB t := by
  induction h with
  | refl => exact le_rfl
  | step hs hmem ih => exact le_trans ih (maxEB_child_le hmem)

theorem ebw_self_le_maxEB (t : PathTree) : ebw t.element ≤ maxEB t := by
  cases t with
  | node e p cs => rw [maxEB]; exact le_max_left _ _

theorem subtree_ebw_le {u t : PathTree} (h : Subtree u t) :
    ebw u.element ≤ maxEB t :=
  le_trans (ebw_self_le_maxEB u) (subtree_maxEB_le h)

theorem forestLen_toList : ∀ (cs : Forest), cs.toList.length = forestLen cs
  | .nil => rfl
  | .cons c cs' => by
    rw [Forest.toList, List.length_cons, forestLen, forestLen_toList cs']
    omega

theorem maxWidth_mem_le :
    ∀ (cs : Forest) (c : PathTree), c ∈ cs.toList → maxWidth c ≤ maxWidthForest cs
  | .nil, c, h => absurd h (List.not_mem_nil c)
  | .cons c' cs', c, h => by
    rcases List.mem_cons.1 h with h | h
    · rw [h, maxWidthForest]; exact le_max_left _ _
    · exact le_trans (maxWidth_mem_le cs' c h)
        (by rw [maxWidthForest]; exact le_max_right _ _)

theorem maxWidth_child_le {c t : PathTree} (h : c ∈ t.childsList) :
    maxWidth c ≤ maxWidth t := by
  cases t with
  | node e p cs =>
    exact le_trans (maxWidth_mem_le cs c h)
      (by rw [maxWidth]; exact le_max_right _ _)

theorem width_self_le (t : PathTree) : t.childsList.length ≤ maxWidth t := by
  cases t with
  | node e p cs =>
    rw [PathTree.childsList, forestLen_toList, maxWidth]
    exact le_max_left _ _

theorem subtree_width_le {u t : PathTree} (h : Subtree u t) :
    u.childsList.length ≤ maxWidth t := by
  induction h with
  | refl => exact width_self_le _
  | step hs hmem ih => exact le_trans ih (maxWidth_child_le hmem)

theorem le_foldl_max (l : List Nat) (a : Nat) :
    a ≤ l.foldl max a ∧ ∀ x ∈ l, x ≤ l.foldl max a := by
  induction l generalizing a with
  | nil => exact ⟨le_rfl, fun x hx => absurd hx (List.not_mem_nil x)⟩
  | cons y rest ih =>
    obtain ⟨h1, h2⟩ := ih (max a y)
    refine ⟨le_trans (le_max_left a y) h1, fun x hx => ?_⟩
    rcases List.mem_cons.1 hx with hx | hx
    · exact le_trans (hx ▸ le_max_right a y) h1
    · exact h2 x hx

theorem maxPB_mem_le {e : PathElement} {path : List PathElement}
    (h : e ∈ path) : ebw e ≤ maxPB path :=
  (le_foldl_max (path.map ebw) 0).2 (ebw e) (List.mem_map_of_mem ebw h)

theorem ebw_eq_wcOf (e : PathElement) : (wcOf e).1 + (wcOf e).2 = ebw e := by
  cases e <;> rfl

theorem ebwHead_le {path path0 : List PathElement} (h : path <:+ path0) :
    (wcOf (path.headD Root)).1 + (wcOf (path.headD Root)).2 ≤ maxPB path0 := by
  rw [ebw_eq_wcOf]
  cases path with
  | nil => simp [ebw]
  | cons e rest =>
    exact maxPB_mem_le (h.subset (List.mem_cons_self e rest))

theorem consume_le (w : Nat × Nat) :
    (consumeWildcard w).1 + (consumeWildcard w).2 ≤ w.1 + w.2 := by
  unfold consumeWildcard
  by_cases h1 : w.1 > 0
  · rw [if_pos h1]
    show w.1 - 1 + w.2 ≤ w.1 + w.2
    omega
  · rw [if_neg h1]
    by_cases h2 : w.2 > 0
    · rw [if_pos h2]
      show w.1 + (w.2 - 1) ≤ w.1 + w.2
      omega
    · rw [if_neg h2]

theorem consume_lt {w : Nat × Nat} (h : ¬(w.1 = 0 ∧ w.2 = 0)) :
    (consumeWildcard w).1 + (consumeWildcard w).2 < w.1 + w.2 := by
  unfold consumeWildcard
  by_cases h1 : w.1 > 0
  · rw [if_pos h1]
    show w.1 - 1 + w.2 < w.1 + w.2
    omega
  · rw [if_neg h1]
    by_cases h2 : w.2 > 0
    · rw [if_pos h2]
      show w.1 + (w.2 - 1) < w.1 + w.2
      omega
    · exact absurd ⟨by omega, by omega⟩ h

theorem mul_add_lt_mul_add {X Y C b b' : Nat} (hXY : X < Y) (hb : b' ≤ C) :
    X * (C + 1) + b' < Y * (C + 1) + b := by
  have h1 : X * (C + 1) + b' < (X + 1) * (C + 1) := by
    have : (X + 1) * (C + 1) = X * (C + 1) + C + 1 := by ring
    omega
  have h2 : (X + 1) * (C + 1) ≤ Y * (C + 1) := Nat.mul_le_mul_right _ hXY
  omega

theorem base_lt_of_path_lt {S : Nat} {p' s' p s : Nat} (hp : p' < p)
    (hs : s' ≤ S) : p' * (S + 1) + s' < p * (S + 1) + s := by
  have h1 : p' * (S + 1) + s' < (p' + 1) * (S + 1) := by
    have : (p' + 1) * (S + 1) = p' * (S + 1) + S + 1 := by ring
    omega
  have h2 : (p' + 1) * (S + 1) ≤ p * (S + 1) := Nat.mul_le_mul_right _ hp
  omega

theorem rank_lt_of_path_lt {S C : Nat} {j j' : Job}
    (hp : j'.path.length < j.path.length) (hs : treeSize j'.tree ≤ S)
    (hb : effT j' + effP j' ≤ C) : jobRank S C j' < jobRank S C j :=
  mul_add_lt_mul_add (base_lt_of_path_lt hp hs) hb

theorem rank_lt_of_size_lt {S C : Nat} {j j' : Job}
    (hp : j'.path.length = j.path.length)
    (hs : treeSize j'.tree < treeSize j.tree)
    (hb : effT j' + effP j' ≤ C) : jobRank S C j' < jobRank S C j :=
  mul_add_lt_mul_add (by rw [hp]; omega) hb

theorem rank_lt_of_budget_lt {S C : Nat} {j j' : Job}
    (hp : j'.path.length = j.path.length)
    (hs : treeSize j'.tree = treeSize j.tree)
    (hb : effT j' + effP j' < effT j + effP j) :
    jobRank S C j' < jobRank S C j := by
  unfold jobRank
  rw [hp, hs]
  omega

theorem pushAll_eq (pushed rest : List Job) :
    pushAll pushed rest = pushed.reverse ++ rest := by
  induction pushed generalizing rest with
  | nil => rfl
  | cons p ps ih =>
    have h0 : pushAll (p :: ps) rest = pushAll ps (p :: rest) := rfl
    rw [h0, ih, List.reverse_cons, List.append_assoc]
    rfl

theorem jobsMeasure_append (W S C : Nat) (a b : List Job) :
    jobsMeasure W S C (a ++ b) = jobsMeasure W S C a + jobsMeasure W S C b := by
  unfold jobsMeasure
  rw [List.map_append, List.sum_append]

theorem jobsMeasure_pushAll (W S C : Nat) (pushed rest : List Job) :
    jobsMeasure W S C (pushAll pushed rest) =
      jobsMeasure W S C pushed + jobsMeasure W S C rest := by
  rw [pushAll_eq, jobsMeasure_append]
  unfold jobsMeasure
  rw [List.map_reverse, List.sum_reverse]

theorem sum_le_length_mul {l : List Nat} {B : Nat} (h : ∀ x ∈ l, x ≤ B) :
    l.sum ≤ l.length * B := by
  induction l with
  | nil => simp
  | cons x rest ih =>
    have hx := h x (List.mem_cons_self x rest)
    have hr := ih (fun y hy => h y (List.mem_cons_of_mem x hy))
    rw [List.sum_cons, List.length_cons]
    calc x + rest.sum ≤ B + rest.length * B := by omega
    _ = (rest.length + 1) * B := by ring

theorem jobsMeasure_lt_pow {W S C : Nat} {pushed : List Job} {R : Nat}
    (hcount : pushed.length ≤ W + 1)
    (hrank : ∀ j ∈ pushed, jobRank S C j < R) :
    jobsMeasure W S C pushed < (W + 2) ^ R := by
  cases pushed with
  | nil =>
    show 0 < (W + 2) ^ R
    exact Nat.pos_pow_of_pos R (by omega)
  | cons j0 rest =>
    have hR : 1 ≤ R := by
      have := hrank j0 (List.mem_cons_self j0 rest)
      omega
    obtain ⟨R', rfl⟩ : ∃ R', R = R' + 1 := ⟨R - 1, by omega⟩
    have hterm : ∀ x ∈ (j0 :: rest).map (fun j => (W + 2) ^ jobRank S C j),
        x ≤ (W + 2) ^ R' := by
      intro x hx
      obtain ⟨j, hj, rfl⟩ := List.mem_map.1 hx
      exact Nat.pow_le_pow_right (by omega) (by have := hrank j hj; omega)
    have hsum := sum_le_length_mul hterm
    rw [List.length_map] at hsum
    have hlen : (j0 :: rest).length * (W + 2) ^ R' ≤ (W + 1) * (W + 2) ^ R' :=
      Nat.mul_le_mul_right _ hcount
    have hpow : (W + 1) * (W + 2) ^ R' < (W + 2) ^ (R' + 1) := by
      rw [pow_succ]
      have hpos : 0 < (W + 2) ^ R' := Nat.pos_pow_of_pos R' (by omega)
      calc (W + 1) * (W + 2) ^ R' = (W + 2) ^ R' * (W + 1) := by ring
      _ < (W + 2) ^ R' * (W + 2) := mul_lt_mul_of_pos_left (by omega) hpos
    exact lt_of_le_of_lt (le_trans hsum hlen) hpow

/-- Shape A: the dispatch consumed one query element and descended into a
child (the `Root`/`Root`, equal-`Name` and tree-wildcard-skip pushes). -/
theorem inv_rank_A {t0 : PathTree} {path0 : List PathElement} {j : Job}
    {e : PathElement} {rest : List PathElement} {c : PathTree}
    {par : Option PathTree} (hInv : JobInv t0 path0 j)
    (hpath : j.path = e :: rest) (hc : c ∈ j.tree.childsList) :
    JobInv t0 path0 ⟨rest, none, c, none, par⟩ ∧
      jobRank (treeSize t0) (maxEB t0 + maxPB path0) ⟨rest, none, c, none, par⟩ <
        jobRank (treeSize t0) (maxEB t0 + maxPB path0) j := by
  obtain ⟨hsub, hsuf, hET0, hEP0⟩ := hInv
  have hsub' : Subtree c t0 := subtree_of_childMem hsub hc
  have hsuf' : rest <:+ path0 :=
    (List.suffix_cons e rest).trans (hpath ▸ hsuf)
  have hET' : effT ⟨rest, none, c, none, par⟩ ≤ maxEB t0 := by
    show (wcOf c.element).1 + (wcOf c.element).2 ≤ _
    rw [ebw_eq_wcOf]
    exact subtree_ebw_le hsub'
  have hEP' : effP ⟨rest, none, c, none, par⟩ ≤ maxPB path0 := ebwHead_le hsuf'
  refine ⟨⟨hsub', hsuf', hET', hEP'⟩, ?_⟩
  refine rank_lt_of_path_lt ?_ (subtree_size_le hsub') (by omega)
  show rest.length < j.path.length
  rw [hpath]
  simp

/-- Shape B: the dispatch kept the query suffix and descended into a child
(the invalid-tree-wildcard and skip-tree-wildcard pushes, and the
query-wildcard consume pushes). -/
theorem inv_rank_B {t0 : PathTree} {path0 : List PathElement} {j : Job}
    {c : PathTree} {X : Option (Nat × Nat)} {par : Option PathTree}
    (hInv : JobInv t0 path0 j) (hc : c ∈ j.tree.childsList)
    (hPB : effP ⟨j.path, X, c, none, par⟩ ≤ maxPB path0) :
    JobInv t0 path0 ⟨j.path, X, c, none, par⟩ ∧
      jobRank (treeSize t0) (maxEB t0 + maxPB path0) ⟨j.path, X, c, none, par⟩ <
        jobRank (treeSize t0) (maxEB t0 + maxPB path0) j := by
  obtain ⟨hsub, hsuf, hET0, hEP0⟩ := hInv
  have hsub' : Subtree c t0 := subtree_of_childMem hsub hc
  have hET' : effT ⟨j.path, X, c, none, par⟩ ≤ maxEB t0 := by
    show (wcOf c.element).1 + (wcOf c.element).2 ≤ _
    rw [ebw_eq_wcOf]
    exact subtree_ebw_le hsub'
  refine ⟨⟨hsub', hsuf, hET', hPB⟩, ?_⟩
  exact rank_lt_of_size_lt rfl (treeSize_child_lt hc) (by omega)

/-- Shape C: the dispatch consumed one query element and stayed at the same
node (the drop-invalid-query-wildcard, skip-query-wildcard and
tree-wildcard-consume pushes). -/
theorem inv_rank_C {t0 : PathTree} {path0 : List PathElement} {j : Job}
    {e : PathElement} {rest : List PathElement} {Y : Option (Nat × Nat)}
    {par : Option PathTree} (hInv : JobInv t0 path0 j)
    (hpath : j.path = e :: rest)
    (hTB : effT ⟨rest, none, j.tree, Y, par⟩ ≤ maxEB t0) :
    JobInv t0 path0 ⟨rest, none, j.tree, Y, par⟩ ∧
      jobRank (treeSize t0) (maxEB t0 + maxPB path0) ⟨rest, none, j.tree, Y, par⟩ <
        jobRank (treeSize t0) (maxEB t0 + maxPB path0) j := by
  obtain ⟨hsub, hsuf, hET0, hEP0⟩ := hInv
  have hsuf' : rest <:+ path0 :=
    (List.suffix_cons e rest).trans (hpath ▸ hsuf)
  have hEP' : effP ⟨rest, none, j.tree, Y, par⟩ ≤ maxPB path0 := ebwHead_le hsuf'
  refine ⟨⟨hsub, hsuf', hTB, hEP'⟩, ?_⟩
  refine rank_lt_of_path_lt ?_ (subtree_size_le hsub) (by omega)
  show rest.length < j.path.length
  rw [hpath]
  simp

/-- Shape D: the double-wildcard consume push: same query suffix, same node,
both effective budgets decremented. -/
theorem inv_rank_D {t0 : PathTree} {path0 : List PathElement} {j : Job}
    {pwEff twEff : Nat × Nat} {par : Option PathTree}
    (hInv : JobInv t0 path0 j)
    (hT : effT j = twEff.1 + twEff.2) (hP : effP j = pwEff.1 + pwEff.2)
    (htw : ¬(twEff.1 = 0 ∧ twEff.2 = 0)) (hpw : ¬(pwEff.1 = 0 ∧ pwEff.2 = 0)) :
    JobInv t0 path0 ⟨j.path, some (consumeWildcard pwEff), j.tree,
        some (consumeWildcard twEff), par⟩ ∧
      jobRank (treeSize t0) (maxEB t0 + maxPB path0)
          ⟨j.path, some (consumeWildcard pwEff), j.tree,
            some (consumeWildcard twEff), par⟩ <
        jobRank (treeSize t0) (maxEB t0 + maxPB path0) j := by
  obtain ⟨hsub, hsuf, hET0, hEP0⟩ := hInv
  have hT' : effT ⟨j.path, some (consumeWildcard pwEff), j.tree,
      some (consumeWildcard twEff), par⟩ =
      (consumeWildcard twEff).1 + (consumeWildcard twEff).2 := rfl
  have hP' : effP ⟨j.path, some (consumeWildcard pwEff), j.tree,
      some (consumeWildcard twEff), par⟩ =
      (consumeWildcard pwEff).1 + (consumeWildcard pwEff).2 := rfl
  have hle1 := consume_le twEff
  have hle2 := consume_le pwEff
  have hlt1 := consume_lt htw
  have hlt2 := consume_lt hpw
  refine ⟨⟨hsub, hsuf, ?_, ?_⟩, ?_⟩
  · rw [hT']; omega
  · rw [hP']; omega
  · exact rank_lt_of_budget_lt rfl rfl (by rw [hT', hP']; omega)

theorem handlePathOnly_spec {t0 : PathTree} {path0 : List PathElement}
    {j : Job} {pw0 : Nat × Nat} {rest : List PathElement} {pushed : List Job}
    {collected : List (List Nat)} (hInv : JobInv t0 path0 j)
    (hpath : j.path = .Wildcard pw0 :: rest)
    (hstep : handlePathOnlyWildcard pw0 j = .next pushed collected) :
    pushed.length ≤ maxWidth t0 + 1 ∧
    ∀ j' ∈ pushed, JobInv t0 path0 j' ∧
      jobRank (treeSize t0) (maxEB t0 + maxPB path0) j' <
        jobRank (treeSize t0) (maxEB t0 + maxPB path0) j := by
  obtain ⟨hsub, hsuf, hET0, hEP0⟩ := hInv
  have heffP : effP j = (j.pathWildcardOverride.getD pw0).1 +
      (j.pathWildcardOverride.getD pw0).2 := by
    unfold effP
    rw [hpath]
    rfl
  have hTBnone : ∀ (par : Option PathTree),
      effT ⟨rest, none, j.tree, none, par⟩ ≤ maxEB t0 := by
    intro par
    show (wcOf j.tree.element).1 + (wcOf j.tree.element).2 ≤ _
    rw [ebw_eq_wcOf]
    exact subtree_ebw_le hsub
  unfold handlePathOnlyWildcard at hstep
  simp only [] at hstep
  by_cases hz : (j.pathWildcardOverride.getD pw0).1 = 0 ∧
      (j.pathWildcardOverride.getD pw0).2 = 0
  · rw [if_pos hz] at hstep
    cases hstep
    refine ⟨by simp, ?_⟩
    intro j' hj'
    rw [List.mem_singleton] at hj'
    subst hj'
    rw [hpath]
    exact inv_rank_C ⟨hsub, hsuf, hET0, hEP0⟩ hpath (hTBnone _)
  · rw [if_neg hz] at hstep
    cases hstep
    constructor
    · rw [List.length_append, List.length_map]
      have hw := subtree_width_le hsub
      by_cases hz1 : (j.pathWildcardOverride.getD pw0).1 = 0
      · rw [if_pos hz1]; simp; omega
      · rw [if_neg hz1]; simp; omega
    · intro j' hj'
      rcases List.mem_append.1 hj' with hj' | hj'
      · by_cases hz1 : (j.pathWildcardOverride.getD pw0).1 = 0
        · rw [if_pos hz1, List.mem_singleton] at hj'
          subst hj'
          rw [hpath]
          exact inv_rank_C ⟨hsub, hsuf, hET0, hEP0⟩ hpath (hTBnone _)
        · rw [if_neg hz1] at hj'
          cases hj'
      · obtain ⟨c, hc, rfl⟩ := List.mem_map.1 hj'
        refine inv_rank_B ⟨hsub, hsuf, hET0, hEP0⟩ hc ?_
        show (consumeWildcard (j.pathWildcardOverride.getD pw0)).1 +
          (consumeWildcard (j.pathWildcardOverride.getD pw0)).2 ≤ _
        have := consume_le (j.pathWildcardOverride.getD pw0)
        omega

theorem handleTreeOnly_spec {t0 : PathTree} {path0 : List PathElement}
    {j : Job} {tw0 : Nat × Nat} {e : PathElement} {rest : List PathElement}
    {pushed : List Job} {collected : List (List Nat)}
    (hInv : JobInv t0 path0 j) (hel : j.tree.element = .Wildcard tw0)
    (hpath : j.path = e :: rest)
    (hstep : handleTreeOnlyWildcard tw0 j = .next pushed collected) :
    pushed.length ≤ maxWidth t0 + 1 ∧
    ∀ j' ∈ pushed, JobInv t0 path0 j' ∧
      jobRank (treeSize t0) (maxEB t0 + maxPB path0) j' <
        jobRank (treeSize t0) (maxEB t0 + maxPB path0) j := by
  obtain ⟨hsub, hsuf, hET0, hEP0⟩ := hInv
  have heffT : effT j = (j.treeWildcardOverride.getD tw0).1 +
      (j.treeWildcardOverride.getD tw0).2 := by
    unfold effT
    rw [hel]
    rfl
  unfold handleTreeOnlyWildcard at hstep
  simp only [] at hstep
  by_cases hlen : j.path.length = 1
  · rw [if_pos hlen] at hstep
    cases hstep
    exact ⟨by simp, fun j' hj' => absurd hj' (List.not_mem_nil j')⟩
  · rw [if_neg hlen] at hstep
    by_cases hz : (j.treeWildcardOverride.getD tw0).1 = 0 ∧
        (j.treeWildcardOverride.getD tw0).2 = 0
    · rw [if_pos hz] at hstep
      cases hstep
      constructor
      · rw [List.length_map]
        have := subtree_width_le hsub
        omega
      · intro j' hj'
        obtain ⟨c, hc, rfl⟩ := List.mem_map.1 hj'
        exact inv_rank_B ⟨hsub, hsuf, hET0, hEP0⟩ hc (ebwHead_le hsuf)
    · rw [if_neg hz] at hstep
      cases hstep
      constructor
      · rw [List.length_append]
        have hw := subtree_width_le hsub
        by_cases hz1 : (j.treeWildcardOverride.getD tw0).1 = 0
        · rw [if_pos hz1, List.length_map, List.length_singleton]; omega
        · rw [if_neg hz1, List.length_nil, List.length_singleton]; omega
      · intro j' hj'
        rcases List.mem_append.1 hj' with hj' | hj'
        · by_cases hz1 : (j.treeWildcardOverride.getD tw0).1 = 0
          · rw [if_pos hz1] at hj'
            obtain ⟨c, hc, rfl⟩ := List.mem_map.1 hj'
            rw [hpath]
            exact inv_rank_A ⟨hsub, hsuf, hET0, hEP0⟩ hpath hc
          · rw [if_neg hz1] at hj'
            cases hj'
        · rw [List.mem_singleton] at hj'
          subst hj'
          rw [hpath]
          refine inv_rank_C ⟨hsub, hsuf, hET0, hEP0⟩ hpath ?_
          show (consumeWildcard (j.treeWildcardOverride.getD tw0)).1 +
            (consumeWildcard (j.treeWildcardOverride.getD tw0)).2 ≤ _
          have := consume_le (j.treeWildcardOverride.getD tw0)
          omega

theorem handleDouble_spec {t0 : PathTree} {path0 : List PathElement}
    {j : Job} {tw0 pw0 : Nat × Nat} {rest : List PathElement}
    {pushed : List Job} {collected : List (List Nat)}
    (hInv : JobInv t0 path0 j) (hel : j.tree.element = .Wildcard tw0)
    (hpath : j.path = .Wildcard pw0 :: rest)
    (hstep : handleDoubleWildcard pw0 tw0 j = .next pushed collected) :
    pushed.length ≤ maxWidth t0 + 1 ∧
    ∀ j' ∈ pushed, JobInv t0 path0 j' ∧
      jobRank (treeSize t0) (maxEB t0 + maxPB path0) j' <
        jobRank (treeSize t0) (maxEB t0 + maxPB path0) j := by
  obtain ⟨hsub, hsuf, hET0, hEP0⟩ := hInv
  have heffT : effT j = (j.treeWildcardOverride.getD tw0).1 +
      (j.treeWildcardOverride.getD tw0).2 := by
    unfold effT
    rw [hel]
    rfl
  have heffP : effP j = (j.pathWildcardOverride.getD pw0).1 +
      (j.pathWildcardOverride.getD pw0).2 := by
    unfold effP
    rw [hpath]
    rfl
  unfold handleDoubleWildcard at hstep
  simp only [] at hstep
  by_cases hz1 : (j.treeWildcardOverride.getD tw0).1 = 0 ∧
      (j.treeWildcardOverride.getD tw0).2 = 0
  · rw [if_pos hz1] at hstep
    cases hstep
    constructor
    · rw [List.length_map]
      have := subtree_width_le hsub
      omega
    · intro j' hj'
      obtain ⟨c, hc, rfl⟩ := List.mem_map.1 hj'
      exact inv_rank_B ⟨hsub, hsuf, hET0, hEP0⟩ hc (ebwHead_le hsuf)
  · rw [if_neg hz1] at hstep
    by_cases hz2 : (j.pathWildcardOverride.getD pw0).1 = 0 ∧
        (j.pathWildcardOverride.getD pw0).2 = 0
    · rw [if_pos hz2] at hstep
      cases hstep
      refine ⟨by simp, ?_⟩
      intro j' hj'
      rw [List.mem_singleton] at hj'
      subst hj'
      rw [hpath]
      refine inv_rank_C ⟨hsub, hsuf, hET0, hEP0⟩ hpath ?_
      show (wcOf j.tree.element).1 + (wcOf j.tree.element).2 ≤ _
      rw [ebw_eq_wcOf]
      exact subtree_ebw_le hsub
    · rw [if_neg hz2] at hstep
      cases hstep
      constructor
      · rw [List.length_append]
        have hw := subtree_width_le hsub
        by_cases hz3 : (j.treeWildcardOverride.getD tw0).1 = 0
        · rw [if_pos hz3, List.length_map, List.length_singleton]; omega
        · rw [if_neg hz3, List.length_nil, List.length_singleton]; omega
      · intro j' hj'
        rcases List.mem_append.1 hj' with hj' | hj'
        · by_cases hz3 : (j.treeWildcardOverride.getD tw0).1 = 0
          · rw [if_pos hz3] at hj'
            obtain ⟨c, hc, rfl⟩ := List.mem_map.1 hj'
            exact inv_rank_B ⟨hsub, hsuf, hET0, hEP0⟩ hc hEP0
          · rw [if_neg hz3] at hj'
            cases hj'
        · rw [List.mem_singleton] at hj'
          subst hj'
          exact inv_rank_D ⟨hsub, hsuf, hET0, hEP0⟩ heffT heffP hz1 hz2

/-- One dispatch of the work-list loop pushes at most `maxWidth t0 + 1` jobs,
each satisfying the job invariant and of strictly smaller rank than the
dispatched job. -/
theorem step_spec {t0 : PathTree} {path0 : List PathElement} {j : Job}
    (hInv : JobInv t0 path0 j) {pushed : List Job} {collected : List (List Nat)}
    (hstep : step j = .next pushed collected) :
    pushed.length ≤ maxWidth t0 + 1 ∧
    ∀ j' ∈ pushed, JobInv t0 path0 j' ∧
      jobRank (treeSize t0) (maxEB t0 + maxPB path0) j' <
        jobRank (treeSize t0) (maxEB t0 + maxPB path0) j := by
  have hInv' := hInv
  obtain ⟨hsub, hsuf, hET0, hEP0⟩ := hInv'
  unfold step at hstep
  cases hpath : j.path with
  | nil =>
    rw [hpath] at hstep
    cases hel : j.tree.element with
    | Root => rw [hel] at hstep; cases hstep
    | Name tn =>
      rw [hel] at hstep
      cases hstep
      exact ⟨by simp, fun j' hj' => absurd hj' (List.not_mem_nil j')⟩
    | Wildcard tw =>
      rw [hel] at hstep
      cases hstep
      exact ⟨by simp, fun j' hj' => absurd hj' (List.not_mem_nil j')⟩
  | cons e rest =>
    rw [hpath] at hstep
    cases hel : j.tree.element with
    | Root =>
      cases e with
      | Root =>
        rw [hel] at hstep
        cases hstep
        constructor
        · rw [List.length_map]
          have := subtree_width_le hsub
          omega
        · intro j' hj'
          obtain ⟨c, hc, rfl⟩ := List.mem_map.1 hj'
          exact inv_rank_A hInv hpath hc
      | Name pn => rw [hel] at hstep; cases hstep
      | Wildcard pw => rw [hel] at hstep; cases hstep
    | Name tn =>
      cases e with
      | Root => rw [hel] at hstep; cases hstep
      | Name pn =>
        rw [hel] at hstep
        simp only [List.head?_cons] at hstep
        by_cases hn : tn = pn
        · rw [if_pos hn] at hstep
          cases hstep
          constructor
          · rw [List.length_map]
            have := subtree_width_le hsub
            omega
          · intro j' hj'
            obtain ⟨c, hc, rfl⟩ := List.mem_map.1 hj'
            exact inv_rank_A hInv hpath hc
        · rw [if_neg hn] at hstep
          cases hstep
          exact ⟨by simp, fun j' hj' => absurd hj' (List.not_mem_nil j')⟩
      | Wildcard pw =>
        rw [hel] at hstep
        exact handlePathOnly_spec hInv hpath hstep
    | Wildcard tw =>
      cases e with
      | Root => rw [hel] at hstep; cases hstep
      | Name pn =>
        rw [hel] at hstep
        exact handleTreeOnly_spec hInv hel hpath hstep
      | Wildcard pw =>
        rw [hel] at hstep
        exact handleDouble_spec hInv hel hpath hstep

/-- The work-list loop completes (returns `some`) whenever its fuel is at
least the termination measure of the pending job list. -/
theorem runJobsF_total (t0 : PathTree) (path0 : List PathElement) :
    ∀ (n : Nat) (J : List Job) (res : UniqueReferenceList),
      (∀ j ∈ J, JobInv t0 path0 j) →
      jobsMeasure (maxWidth t0) (treeSize t0) (maxEB t0 + maxPB path0) J ≤ n →
      (runJobsF n J res).isSome := by
  intro n
  induction n with
  | zero =>
    intro J res hInv hm
    cases J with
    | nil => rw [runJobsF]; rfl
    | cons j rest =>
      exfalso
      have hpos : 0 < (maxWidth t0 + 2) ^
          jobRank (treeSize t0) (maxEB t0 + maxPB path0) j :=
        Nat.pos_pow_of_pos _ (by omega)
      have : jobsMeasure (maxWidth t0) (treeSize t0) (maxEB t0 + maxPB path0)
          (j :: rest) = (maxWidth t0 + 2) ^
            jobRank (treeSize t0) (maxEB t0 + maxPB path0) j +
          jobsMeasure (maxWidth t0) (treeSize t0) (maxEB t0 + maxPB path0)
            rest := by
        unfold jobsMeasure
        rw [List.map_cons, List.sum_cons]
      omega
  | succ n ih =>
    intro J res hInv hm
    cases J with
    | nil => rw [runJobsF]; rfl
    | cons j rest =>
      rw [runJobsF]
      cases hstep : step j with
      | abort => rfl
      | next pushed collected =>
        obtain ⟨hcount, hjobs⟩ := step_spec (hInv j (List.mem_cons_self j rest)) hstep
        have hmeasure : jobsMeasure (maxWidth t0) (treeSize t0)
            (maxEB t0 + maxPB path0) (pushAll pushed rest) ≤ n := by
          rw [jobsMeasure_pushAll]
          have hlt := jobsMeasure_lt_pow (S := treeSize t0)
            (C := maxEB t0 + maxPB path0) hcount (fun j' hj' => (hjobs j' hj').2)
          have hcons : jobsMeasure (maxWidth t0) (treeSize t0)
              (maxEB t0 + maxPB path0) (j :: rest) = (maxWidth t0 + 2) ^
                jobRank (treeSize t0) (maxEB t0 + maxPB path0) j +
              jobsMeasure (maxWidth t0) (treeSize t0) (maxEB t0 + maxPB path0)
                rest := by
            unfold jobsMeasure
            rw [List.map_cons, List.sum_cons]
          omega
        refine ih (pushAll pushed rest) _ ?_ hmeasure
        intro j' hj'
        rw [pushAll_eq] at hj'
        rcases List.mem_append.1 hj' with hj' | hj'
        · exact (hjobs j' (List.mem_reverse.1 hj')).1
        · exact hInv j' (List.mem_cons_of_mem j hj')

/-- Claim C3: `get_payloads` terminates for every tree and every query path:
each dispatched work item is replaced only by items of strictly smaller rank
(shorter query suffix, strictly smaller subtree, or strictly smaller
remaining wildcard budgets), so the loop completes within the computed fuel
and always produces a result. -/
theorem claim_C3_termination (t : PathTree) (path : List PathElement) :
    ∃ out, getPayloads t path = some out := by
  have hInv : JobInv t path ⟨path, none, t, none, none⟩ := by
    refine ⟨.refl t, List.suffix_refl path, ?_, ?_⟩
    · show (wcOf t.element).1 + (wcOf t.element).2 ≤ _
      rw [ebw_eq_wcOf]
      exact ebw_self_le_maxEB t
    · exact ebwHead_le (List.suffix_refl path)
  have h := runJobsF_total t path
    (jobsMeasure (maxWidth t) (treeSize t) (maxEB t + maxPB path)
      [⟨path, none, t, none, none⟩])
    [⟨path, none, t, none, none⟩] ⟨[], []⟩
    (fun j hj => by rw [List.mem_singleton] at hj; rw [hj]; exact hInv)
    le_rfl
  unfold getPayloads
  exact Option.isSome_iff_exists.1 h


/-! ### Validation against the Rust unit tests

The following results reproduce assertions of the `#[test]` functions in
path_tree.rs on the embedded definitions, as evidence that the embedding
computes what the source computes. -/

theorem validation_test_get_payloads :
    getPayloads (buildTree [([Root, Name "test".toList], 1)])
        [Root, Name "test".toList] = some [1] ∧
    getPayloads (buildTree [([Root, Name "test".toList], 1)])
        [Root, Wildcard (1, 0)] = some [1] := by decide

theorem validation_test_get_2payload_different_path :
    getPayloads (buildTree [([Root, Name "test".toList], 1),
        ([Root, Name "test2".toList], 2)]) [Root] = some [] ∧
    (getPayloadsList (buildTree [([Root, Name "test".toList], 1),
        ([Root, Name "test2".toList], 2)]) [Root, Wildcard (1, 0)]).length = 2 ∧
    1 ∈ getPayloadsList (buildTree [([Root, Name "test".toList], 1),
        ([Root, Name "test2".toList], 2)]) [Root, Wildcard (1, 0)] ∧
    2 ∈ getPayloadsList (buildTree [([Root, Name "test".toList], 1),
        ([Root, Name "test2".toList], 2)]) [Root, Wildcard (1, 0)] := by decide

theorem validation_test_add_2payload_same_path :
    getPayloads (buildTree [([Root, Name "test".toList], 1),
        ([Root, Name "test".toList], 2)]) [Root, Name "test".toList] =
      some [1, 2] := by decide

theorem validation_test_wildcard_at_end_of_path :
    (getPayloadsList endTree [Root, Wildcard (0, 1)]).length = 3 ∧
    (getPayloadsList endTree [Root, Wildcard (0, 2)]).length = 7 ∧
    (getPayloadsList endTree [Root, Wildcard (1, 1)]).length = 6 ∧
    (getPayloadsList endTree [Root, Wildcard (2, 0)]).length = 4 ∧
    21 ∈ getPayloadsList endTree [Root, Wildcard (2, 0)] ∧
    getPayloadsList endTree [Root, Wildcard (3, 0)] = [] := by decide

set_option maxRecDepth 100000 in
set_option exponentiation.threshold 10000 in
theorem validation_test_wildcard_in_tree :
    (getPayloadsList inTreeTree [Root, Name "l1".toList]).length = 2 ∧
    1 ∈ getPayloadsList inTreeTree [Root, Name "l1".toList] ∧
    500 ∈ getPayloadsList inTreeTree [Root, Name "l1".toList] ∧
    (getPayloadsList inTreeTree
      [Root, Name "l2".toList, Name "light".toList]).length = 5 := by decide

theorem validation_parser_examples :
    pathFromString "/" = .ok [Root] ∧
    pathFromString "/a/" = .error "Path may not end with /" ∧
    pathFromString "/first_floor/*2,0" =
      .ok [Root, Name "first_floor".toList, Wildcard (2, 0)] ∧
    pathFromString "/kitchen*" = .ok [Root, Name "kitchen*".toList] := by decide

end Homecentral
